import Mathlib

/-!
Verification development for the mind-agent repository.

The definitions below are a shallow embedding of the heuristic
relevance-ranking slice of the code base (`src/services/context-builder.ts`,
bundled in the sources as the second half of `src/init.ts`) and of the
issue-processing loop of the daemon (`processNewIssues` in `src/index.ts`).
Pure functions of the TypeScript source become Lean functions; the file
system is passed explicitly (`String → Except String String`); JavaScript
regular-expression scans are embedded as executable matchers over maximal
word-character runs, which coincide with the `\b`-delimited matches of the
concrete patterns used by the source.
-/

namespace MindAgent

/-! ## String helpers

`String.prototype.includes` of JavaScript, embedded as a contiguous
substring search over the character lists of the strings. -/

/-- Boolean test that `needle` is an initial segment of `hay`. -/
def leadsWith : List Char → List Char → Bool
  | [], _ => true
  | _ :: _, [] => false
  | a :: as, b :: bs => a == b && leadsWith as bs

/-- Scan `hay` for a contiguous occurrence of `needle`. -/
def containsRun (needle : List Char) : List Char → Bool
  | [] => leadsWith needle []
  | c :: rest => leadsWith needle (c :: rest) || containsRun needle rest

/-- Embedding of JavaScript `s.includes(pat)`. -/
def strIncludes (s pat : String) : Bool :=
  containsRun pat.data s.data

/-- Embedding of JavaScript `s.startsWith(p)`. -/
def jsStartsWith (s p : String) : Bool :=
  leadsWith p.data s.data

/-- Embedding of JavaScript `s.toLowerCase()` (character-wise ASCII
lowering, which agrees with the JavaScript function on ASCII text). -/
def lowerStr (s : String) : String :=
  String.mk (s.data.map Char.toLower)

/-- Embedding of JavaScript `Array.prototype.join('\n')`. -/
def joinLines : List String → String
  | [] => ""
  | [l] => l
  | l :: rest => l ++ "\n" ++ joinLines rest

/-- Join path components with the POSIX separator, as `path.join` /
`path.relative` produce for the walk below. -/
def joinPath : List String → String
  | [] => ""
  | [x] => x
  | x :: xs => x ++ "/" ++ joinPath xs

/-- Embedding of Node `path.extname` applied to a base name: the suffix
from the last `.`, or `""` when there is no `.` or the only `.` is the
leading character. -/
def extname (name : String) : String :=
  match name.data.reverse.findIdx? (fun c => c == '.') with
  | none => ""
  | some k =>
    let i := name.data.length - 1 - k
    if i == 0 then "" else String.mk (name.data.drop i)

/-! ## Relevance scorer (`findRelevantFiles` in the source)

The per-file scoring loops of the source add a fixed bonus once and
`break`, so each loop is embedded as a single guarded bonus; the keyword
loop ranges over `keywords.slice(0, 20)` and its reason string names the
first matching keyword. -/

/-- The `fileRefs` loop: `relativePath.includes(ref) || entry.name.includes(ref)`
for some reference (the loop breaks after the first hit). -/
def refHit (relativePath name : String) (fileRefs : List String) : Bool :=
  fileRefs.any (fun ref => strIncludes relativePath ref || strIncludes name ref)

/-- The keyword loop: first keyword among the first 20 whose lowercasing
occurs in the lowercased file name, if any. -/
def kwHit (name : String) (keywords : List String) : Option String :=
  (keywords.take 20).find? (fun kw => strIncludes (lowerStr name) (lowerStr kw))

/-- The entry-point bonus test of the source:
`entry.name.includes('index') || entry.name.includes('main') || entry.name.includes('lib')`. -/
def isEntryName (name : String) : Bool :=
  strIncludes name "index" || strIncludes name "main" || strIncludes name "lib"

/-- Total score the source computes for one file (`score` after the four
rules: +10 reference, +3 keyword, +2 README, +1 entry point). -/
def fileScore (relativePath name : String) (fileRefs keywords : List String) : Nat :=
  (if refHit relativePath name fileRefs then 10 else 0)
  + (if (kwHit name keywords).isSome then 3 else 0)
  + (if name == "README.md" then 2 else 0)
  + (if isEntryName name then 1 else 0)

/-- The `reasons` list the source accumulates, in rule order. -/
def fileReasons (relativePath name : String) (fileRefs keywords : List String) : List String :=
  (if refHit relativePath name fileRefs then ["Referenced in issue"] else [])
  ++ (match kwHit name keywords with
      | some kw => ["Matches keyword: " ++ kw]
      | none => [])
  ++ (if name == "README.md" then ["README file"] else [])
  ++ (if isEntryName name then ["Entry point file"] else [])

/-- `reasons[0] || 'Relevant file'` of the source. -/
def fileReason (relativePath name : String) (fileRefs keywords : List String) : String :=
  (fileReasons relativePath name fileRefs keywords).headD "Relevant file"

/-- A directory tree as the walk sees it: named files and named
directories with ordered children (`fs.readdirSync` order). -/
inductive FsEntry where
  | file (name : String)
  | dir (name : String) (children : List FsEntry)
deriving Repr

/-- One element of the source's `results` array. -/
structure ScoredFile where
  path : String
  reason : String
  score : Nat
deriving DecidableEq, Repr

/-- The skip test of the walk:
`entry.name.startsWith('.') || entry.name === 'node_modules' || entry.name === 'target' || entry.name === 'dist'`. -/
def skipName (name : String) : Bool :=
  jsStartsWith name "." || name == "node_modules" || name == "target" || name == "dist"

/-- The extension allow-list `codeExtensions` of the source. -/
def codeExtensions : List String :=
  [".ts", ".tsx", ".js", ".jsx", ".rs", ".py", ".go", ".md"]

/-- Scoring of one file entry (extension filter, the four rules, and the
`score > 0` push guard); `pre` is the list of directory names from the
repository root, so `joinPath (pre ++ [name])` is `path.relative(repoPath, fullPath)`. -/
def scoreEntry (pre : List String) (name : String) (fileRefs keywords : List String) :
    List ScoredFile :=
  let rel := joinPath (pre ++ [name])
  if codeExtensions.contains (extname name) then
    let s := fileScore rel name fileRefs keywords
    if 0 < s then
      [{ path := rel, reason := fileReason rel name fileRefs keywords, score := s }]
    else []
  else []

/-- The recursive walk `walkDir` of the source, with the depth counted
down instead of up: the source enters `walkDir(dir, depth)` and returns
at once when `depth > 5`, so a call at depth `d` has `fuel = 6 - d`
directory levels left and `fuel = 0` is exactly the `depth > 5` early
return. Each entry of the current directory is handled in order: skipped
names produce nothing, a surviving directory is walked with one unit of
fuel less, a surviving file is scored. The top-level call
`walkDir(repoPath, 0)` is `walkFuel fileRefs keywords 6 []`. -/
def walkFuel (fileRefs keywords : List String) :
    Nat → List String → List FsEntry → List ScoredFile
  | 0, _, _ => []
  | fuel + 1, pre, entries =>
    entries.foldr
      (fun e acc =>
        (match e with
         | FsEntry.file name =>
           if skipName name then [] else scoreEntry pre name fileRefs keywords
         | FsEntry.dir name children =>
           if skipName name then []
           else walkFuel fileRefs keywords fuel (pre ++ [name]) children)
          ++ acc)
      []

/-- JavaScript `Array.prototype.sort` with comparator `(a, b) => b.score - a.score`
is a stable descending sort by score; embedded as stable insertion. -/
def insertByScore (x : ScoredFile) : List ScoredFile → List ScoredFile
  | [] => [x]
  | y :: ys => if y.score < x.score then x :: y :: ys else y :: insertByScore x ys

/-- Stable sort by score descending (later elements inserted after
equal-scored earlier elements). -/
def sortByScoreDesc (l : List ScoredFile) : List ScoredFile :=
  l.foldl (fun acc x => insertByScore x acc) []

/-- `findRelevantFiles` of the source: walk from the repository root
(depth 0, hence fuel 6), sort by score descending, truncate to
`maxFiles`, drop the scores. -/
def findRelevantFiles (tree : List FsEntry) (fileRefs keywords : List String)
    (maxFiles : Nat) : List (String × String) :=
  ((sortByScoreDesc (walkFuel fileRefs keywords 6 [] tree)).take maxFiles).map
    (fun r => (r.path, r.reason))

/-- `findRelevantFiles` at its default `maxFiles = 10`. -/
def findRelevantFilesDefault (tree : List FsEntry) (fileRefs keywords : List String) :
    List (String × String) :=
  findRelevantFiles tree fileRefs keywords 10

/-! ## Keyword extractor (`extractKeywords` in the source)

The identifier regex
`/\b([A-Z][a-z]+[A-Z][a-zA-Z]*|[a-z]+_[a-z_]+|[A-Z][A-Z_]+)\b/g`
only consumes word characters and is delimited by `\b` on both sides, so
its matches are exactly the maximal word-character runs of the text that
are fully matched by one of the three alternatives; the matchers below
decide full matches of each alternative (the quantifier choices are
forced: `[a-z]+`/`[a-z]*` can only consume lowercase letters, so the
following `[A-Z]` or `_` must match the first character of another
class). -/

/-- JavaScript `\w`: `[A-Za-z0-9_]`. -/
def isWordChar (c : Char) : Bool :=
  c.isAlpha || c.isDigit || c == '_'

/-- Maximal runs of characters satisfying `p`, in order; `cur` is the
reversed run being accumulated. -/
def runsOfAux (p : Char → Bool) : List Char → List Char → List (List Char)
  | cur, [] => if cur.isEmpty then [] else [cur.reverse]
  | cur, c :: rest =>
    if p c then runsOfAux p (c :: cur) rest
    else (if cur.isEmpty then [] else [cur.reverse]) ++ runsOfAux p [] rest

/-- Maximal runs of characters satisfying `p`. -/
def runsOf (p : Char → Bool) (cs : List Char) : List (List Char) :=
  runsOfAux p [] cs

/-- Full match of `[a-z]*[A-Z][a-zA-Z]*`: the `[A-Z]` must match the
first non-lowercase character. -/
def a1Tail : List Char → Bool
  | [] => false
  | c :: rest => if c.isUpper then rest.all Char.isAlpha else c.isLower && a1Tail rest

/-- Full match of the first alternative `[A-Z][a-z]+[A-Z][a-zA-Z]*`
(PascalCase compound with an internal capital). -/
def matchA1 : List Char → Bool
  | c0 :: c1 :: rest => c0.isUpper && c1.isLower && a1Tail rest
  | _ => false

/-- Full match of `[a-z]*_[a-z_]+`: the `_` must match the first
non-lowercase character. -/
def a2Tail : List Char → Bool
  | [] => false
  | c :: rest =>
    if c.isLower then a2Tail rest
    else c == '_' && !rest.isEmpty && rest.all (fun d => d.isLower || d == '_')

/-- Full match of the second alternative `[a-z]+_[a-z_]+` (snake_case). -/
def matchA2 : List Char → Bool
  | c :: rest => c.isLower && a2Tail rest
  | [] => false

/-- Full match of the third alternative `[A-Z][A-Z_]+` (SCREAMING_SNAKE). -/
def matchA3 : List Char → Bool
  | c :: rest => c.isUpper && !rest.isEmpty && rest.all (fun d => d.isUpper || d == '_')
  | [] => false

/-- Full match of the identifier pattern: ordered alternation of the
three alternatives (for a full anchored match, ordered choice is plain
disjunction). -/
def matchIdentifier (cs : List Char) : Bool :=
  matchA1 cs || matchA2 cs || matchA3 cs

/-- The `identifiers` array of the source: all `\b`-delimited matches of
the identifier pattern, i.e. the maximal word-character runs fully
matching one of the three alternatives, in text order. -/
def identifierTokens (text : String) : List String :=
  ((runsOf isWordChar text.data).filter matchIdentifier).map (fun r => String.mk r)

/-- The stop-word set of the source, transcribed verbatim. -/
def stopWords : List String :=
  ["the", "a", "an", "is", "are", "was", "were", "be", "been", "being",
   "have", "has", "had", "do", "does", "did", "will", "would", "could",
   "should", "may", "might", "must", "shall", "can", "need", "dare",
   "ought", "used", "to", "of", "in", "for", "on", "with", "at", "by",
   "from", "as", "into", "through", "during", "before", "after", "above",
   "below", "between", "under", "again", "further", "then", "once", "here",
   "there", "when", "where", "why", "how", "all", "each", "few", "more",
   "most", "other", "some", "such", "no", "nor", "not", "only", "own",
   "same", "so", "than", "too", "very", "just", "and", "but", "if", "or",
   "because", "until", "while", "this", "that", "these", "those", "it",
   "its", "i", "me", "my", "we", "our", "you", "your", "he", "she", "they"]

/-- The per-character effect of `.replace(/[^a-z0-9\s]/g, ' ')` applied
after `.toLowerCase()`. -/
def cleanChar (c : Char) : Char :=
  if c.isLower || c.isDigit || c.isWhitespace then c else ' '

/-- The `words` array of the source: lowercase the text, blank out
everything but `[a-z0-9\s]`, split on whitespace, keep words longer than
3 characters that are not stop words. -/
def significantWords (text : String) : List String :=
  ((runsOf (fun c => !c.isWhitespace) ((text.data.map Char.toLower).map cleanChar)).map
      (fun r => String.mk r)).filter
    (fun w => 3 < w.length && !stopWords.contains w)

/-- First-occurrence deduplication, the effect of
`[...new Set([...identifiers, ...words])]`. -/
def dedupAux (seen : List String) : List String → List String
  | [] => []
  | x :: xs => if seen.contains x then dedupAux seen xs else x :: dedupAux (x :: seen) xs

/-- `extractKeywords` of the source. -/
def extractKeywords (text : String) : List String :=
  dedupAux [] (identifierTokens text ++ significantWords text)

/-! ## Task brief generation (`context-builder.ts`)

The file system is passed explicitly as `String → Except String String`
(`fs.readFileSync` either returns the contents or throws); dates are
rendered by an explicit `formatDate` parameter standing for the
locale-dependent `toLocaleDateString`. -/

/-- Issue metadata as used by `generateTaskFile`. -/
structure IssueMeta where
  number : Nat
  title : String
  body : Option String
  html_url : String
  repo_name : String
  labels : List String

/-- One issue comment. -/
structure CommentItem where
  user : String
  body : String
  created_at : String

/-- One relevant file with its loaded content. -/
structure RelevantFile where
  path : String
  content : String
  reason : String

/-- The `TaskContext` of the source. -/
structure TaskContext where
  issue : IssueMeta
  comments : List CommentItem
  relevantFiles : List RelevantFile
  repoPath : String
  branchName : String

/-- JavaScript `a || b` for a nullable string: `null` and the empty
string are both falsy. -/
def jsOrDefault (s : Option String) (dflt : String) : String :=
  match s with
  | none => dflt
  | some v => if v == "" then dflt else v

/-- `readFileContent` of the source: read the file, cap the content at
`maxLines` lines with a truncation marker; a thrown read error is caught
and rendered as an inline error marker. -/
def readFileContent (fsys : String → Except String String) (filePath : String)
    (maxLines : Nat) : String :=
  match fsys filePath with
  | Except.ok content =>
    let lines := content.splitOn "\n"
    if maxLines < lines.length then
      joinLines (lines.take maxLines)
        ++ "\n\n... (truncated, " ++ toString (lines.length - maxLines) ++ " more lines)"
    else content
  | Except.error e => "[Error reading file: " ++ e ++ "]"

/-- `generateTaskFile` of the source: pure string assembly of the brief. -/
def generateTaskFile (formatDate : String → String) (context : TaskContext) : String :=
  joinLines
    (["# Issue #" ++ toString context.issue.number ++ ": " ++ context.issue.title,
      "",
      "**Repository:** " ++ context.issue.repo_name,
      "**Branch:** `" ++ context.branchName ++ "`",
      "**GitHub URL:** " ++ context.issue.html_url,
      "**Local Path:** `" ++ context.repoPath ++ "`"]
     ++ (if 0 < context.issue.labels.length then
          ["**Labels:** " ++ String.intercalate ", " context.issue.labels]
         else [])
     ++ ["", "---", "", "## Issue Description", "",
         jsOrDefault context.issue.body "*No description provided*", ""]
     ++ (if 0 < context.comments.length then
          ["## Comments", ""]
            ++ (context.comments.map (fun c =>
                 ["### @" ++ c.user ++ " (" ++ formatDate c.created_at ++ ")",
                  "", c.body, ""])).flatten
         else [])
     ++ ["---", "", "## Relevant Files", ""]
     ++ (if context.relevantFiles.length == 0 then
          ["*No relevant files automatically identified. You may need to explore the repository.*"]
         else
          (context.relevantFiles.map (fun f =>
            ["### `" ++ f.path ++ "`", "*" ++ f.reason ++ "*", "",
             "```", f.content, "```", ""])).flatten)
     ++ ["---", "", "## How to Fix", "",
         "1. Open this repository in your editor:",
         "   ```bash",
         "   github-agent open " ++ toString context.issue.number,
         "   ```",
         "",
         "2. The branch has already been created: `" ++ context.branchName ++ "`",
         "",
         "3. Fix the issue described above",
         "",
         "4. After fixing, push your changes:",
         "   ```bash",
         "   github-agent push " ++ toString context.issue.number,
         "   ```",
         ""])

/-- The file-loading step of `buildContext`: each relevant path is read
via `readFileContent(path.join(repoPath, p))` (POSIX join). -/
def contextFiles (fsys : String → Except String String) (repoPath : String)
    (pairs : List (String × String)) : List RelevantFile :=
  pairs.map (fun pr =>
    { path := pr.1, content := readFileContent fsys (repoPath ++ "/" ++ pr.1) 500,
      reason := pr.2 })

/-- The pure tail of `buildContext`: assemble the context from the scored
pairs and render the brief. -/
def renderBrief (formatDate : String → String) (issue : IssueMeta)
    (comments : List CommentItem) (fsys : String → Except String String)
    (repoPath branchName : String) (pairs : List (String × String)) : String :=
  generateTaskFile formatDate
    { issue := issue, comments := comments,
      relevantFiles := contextFiles fsys repoPath pairs,
      repoPath := repoPath, branchName := branchName }

/-! ## Issue processing loop (`processNewIssues` in the daemon)

The loop iterates over the issues currently in status `new`. The body of
the `try` block (clone or update the repository, create the feature
branch, build the context — which itself marks the issue `ready` — and
notify) is abstracted as one effectful step `proc` returning either the
status updates it performed or the thrown error; the `catch` block logs
and performs `updateIssueStatus(issue.id, 'skipped')`. The function below
returns the sequence of status updates the loop performs. -/

/-- The fields of a stored issue the loop touches. -/
structure DbIssue where
  id : Nat
  repo_name : String
  issue_number : Nat
deriving DecidableEq, Repr

/-- The per-issue loop of `processNewIssues`: run the try-block `proc`;
on success keep its status updates, on a thrown error emit the single
caller-side update marking the issue `skipped`, then continue with the
next issue. -/
def processNewIssues (proc : DbIssue → Except String (List (Nat × String))) :
    List DbIssue → List (Nat × String)
  | [] => []
  | issue :: rest =>
    (match proc issue with
     | Except.ok updates => updates
     | Except.error _ => [(issue.id, "skipped")])
      ++ processNewIssues proc rest

/-- Score-descending order, the postcondition of the comparator
`(a, b) => b.score - a.score`. -/
def scoresSorted (l : List ScoredFile) : Prop :=
  List.Pairwise (fun a b => b.score ≤ a.score) l

theorem mem_insertByScore {y x : ScoredFile} {acc : List ScoredFile} :
    y ∈ insertByScore x acc ↔ y = x ∨ y ∈ acc := by
  induction acc with
  | nil => simp [insertByScore]
  | cons z zs ih =>
    by_cases h : z.score < x.score
    · simp [insertByScore, h]
    · simp only [insertByScore, if_neg h, List.mem_cons, ih]
      tauto

theorem length_insertByScore (x : ScoredFile) (acc : List ScoredFile) :
    (insertByScore x acc).length = acc.length + 1 := by
  induction acc with
  | nil => rfl
  | cons z zs ih =>
    by_cases h : z.score < x.score <;> simp [insertByScore, h, ih]

theorem scoresSorted_insertByScore {x : ScoredFile} {acc : List ScoredFile}
    (hacc : scoresSorted acc) : scoresSorted (insertByScore x acc) := by
  induction acc with
  | nil => simp [insertByScore, scoresSorted]
  | cons z zs ih =>
    rcases hacc with _ | ⟨hz, hzs⟩
    by_cases h : z.score < x.score
    · show scoresSorted (insertByScore x (z :: zs))
      unfold scoresSorted
      simp only [insertByScore, if_pos h]
      refine List.Pairwise.cons ?_ (List.Pairwise.cons hz hzs)
      intro w hw
      rcases List.mem_cons.mp hw with rfl | hw'
      · exact Nat.le_of_lt h
      · exact Nat.le_trans (hz w hw') (Nat.le_of_lt h)
    · show scoresSorted (insertByScore x (z :: zs))
      unfold scoresSorted
      simp only [insertByScore, if_neg h]
      refine List.Pairwise.cons ?_ (ih hzs)
      intro w hw
      rcases mem_insertByScore.mp hw with rfl | hw'
      · exact Nat.le_of_not_lt h
      · exact hz w hw'

theorem filter_eq_nil_of_score_lt {l : List ScoredFile} {s : Nat}
    (h : ∀ z ∈ l, z.score < s) :
    l.filter (fun r => r.score == s) = [] := by
  rw [List.filter_eq_nil_iff]
  intro z hz
  simpa using Nat.ne_of_lt (h z hz)

theorem filter_insertByScore {x : ScoredFile} {acc : List ScoredFile}
    (hacc : scoresSorted acc) (s : Nat) :
    (insertByScore x acc).filter (fun r => r.score == s)
      = acc.filter (fun r => r.score == s)
        ++ (if x.score == s then [x] else []) := by
  induction acc with
  | nil =>
    simp only [insertByScore, List.filter_nil, List.nil_append]
    by_cases hx : x.score == s <;> simp [hx]
  | cons z zs ih =>
    rcases hacc with _ | ⟨hz, hzs⟩
    by_cases h : z.score < x.score
    · simp only [insertByScore, if_pos h]
      by_cases hx : x.score == s
      · have hxs : x.score = s := by simpa using hx
        have hlt : ∀ w ∈ z :: zs, w.score < s := by
          intro w hw
          rcases List.mem_cons.mp hw with rfl | hw'
          · omega
          · have := hz w hw'
            omega
        have h1 : (z :: zs).filter (fun r => r.score == s) = [] :=
          filter_eq_nil_of_score_lt hlt
        have h2 : (x :: z :: zs).filter (fun r => r.score == s)
            = x :: (z :: zs).filter (fun r => r.score == s) := by
          rw [List.filter_cons]
          simp [hx]
        rw [h2, h1]
        simp [hx]
      · have h2 : (x :: z :: zs).filter (fun r => r.score == s)
            = (z :: zs).filter (fun r => r.score == s) := by
          rw [List.filter_cons]
          simp [hx]
        rw [h2]
        simp [hx]
    · simp only [insertByScore, if_neg h, List.filter_cons, ih hzs]
      by_cases hzs' : z.score == s <;> simp [hzs']

theorem sortAux_sorted :
    ∀ (l : List ScoredFile) (acc : List ScoredFile), scoresSorted acc →
      scoresSorted (l.foldl (fun a x => insertByScore x a) acc) := by
  intro l
  induction l with
  | nil => intro acc h; exact h
  | cons x xs ih =>
    intro acc h
    exact ih (insertByScore x acc) (scoresSorted_insertByScore h)

theorem sortAux_filter :
    ∀ (l : List ScoredFile) (acc : List ScoredFile) (s : Nat), scoresSorted acc →
      (l.foldl (fun a x => insertByScore x a) acc).filter (fun r => r.score == s)
        = acc.filter (fun r => r.score == s) ++ l.filter (fun r => r.score == s) := by
  intro l
  induction l with
  | nil => intro acc s _; simp
  | cons x xs ih =>
    intro acc s h
    simp only [List.foldl_cons, List.filter_cons]
    rw [ih (insertByScore x acc) s (scoresSorted_insertByScore h),
      filter_insertByScore h s]
    by_cases hx : x.score == s <;> simp [hx]

theorem sortAux_mem :
    ∀ (l : List ScoredFile) (acc : List ScoredFile) (y : ScoredFile),
      y ∈ l.foldl (fun a x => insertByScore x a) acc ↔ y ∈ acc ∨ y ∈ l := by
  intro l
  induction l with
  | nil => simp
  | cons x xs ih =>
    intro acc y
    simp only [List.foldl_cons, ih, mem_insertByScore, List.mem_cons]
    tauto

theorem sortAux_length :
    ∀ (l : List ScoredFile) (acc : List ScoredFile),
      (l.foldl (fun a x => insertByScore x a) acc).length = acc.length + l.length := by
  intro l
  induction l with
  | nil => simp
  | cons x xs ih =>
    intro acc
    simp only [List.foldl_cons, ih, length_insertByScore, List.length_cons]
    omega

theorem scoresSorted_sortByScoreDesc (l : List ScoredFile) :
    scoresSorted (sortByScoreDesc l) :=
  sortAux_sorted l [] (List.Pairwise.nil)

theorem filter_sortByScoreDesc (l : List ScoredFile) (s : Nat) :
    (sortByScoreDesc l).filter (fun r => r.score == s)
      = l.filter (fun r => r.score == s) := by
  simpa using sortAux_filter l [] s List.Pairwise.nil

theorem mem_sortByScoreDesc {y : ScoredFile} {l : List ScoredFile} :
    y ∈ sortByScoreDesc l ↔ y ∈ l := by
  simpa using sortAux_mem l [] y

theorem length_sortByScoreDesc (l : List ScoredFile) :
    (sortByScoreDesc l).length = l.length := by
  simpa using sortAux_length l []

example : extname "auth.ts" = ".ts" := by decide

example : extname ".eslintrc" = "" := by decide

example : extname ".eslintrc.js" = ".js" := by decide

example :
    findRelevantFiles [FsEntry.dir "src" [FsEntry.file "auth.ts", FsEntry.file "other.ts"]]
      ["auth.ts"] [] 10 = [("src/auth.ts", "Referenced in issue")] := by decide

/-! ## Walk lemmas -/

theorem walkFuel_zero (fileRefs keywords : List String) (pre : List String)
    (entries : List FsEntry) :
    walkFuel fileRefs keywords 0 pre entries = [] := rfl

theorem walkFuel_succ_nil (fileRefs keywords : List String) (fuel : Nat)
    (pre : List String) :
    walkFuel fileRefs keywords (fuel + 1) pre [] = [] := rfl

theorem walkFuel_succ_file (fileRefs keywords : List String) (fuel : Nat)
    (pre : List String) (name : String) (rest : List FsEntry) :
    walkFuel fileRefs keywords (fuel + 1) pre (FsEntry.file name :: rest)
      = (if skipName name then [] else scoreEntry pre name fileRefs keywords)
        ++ walkFuel fileRefs keywords (fuel + 1) pre rest := rfl

theorem walkFuel_succ_dir (fileRefs keywords : List String) (fuel : Nat)
    (pre : List String) (name : String) (children rest : List FsEntry) :
    walkFuel fileRefs keywords (fuel + 1) pre (FsEntry.dir name children :: rest)
      = (if skipName name then []
         else walkFuel fileRefs keywords fuel (pre ++ [name]) children)
        ++ walkFuel fileRefs keywords (fuel + 1) pre rest := rfl

theorem mem_scoreEntry {r : ScoredFile} {pre : List String} {name : String}
    {fileRefs keywords : List String}
    (hr : r ∈ scoreEntry pre name fileRefs keywords) :
    extname name ∈ codeExtensions
      ∧ 0 < fileScore (joinPath (pre ++ [name])) name fileRefs keywords
      ∧ r = { path := joinPath (pre ++ [name]),
              reason := fileReason (joinPath (pre ++ [name])) name fileRefs keywords,
              score := fileScore (joinPath (pre ++ [name])) name fileRefs keywords } := by
  by_cases hext : extname name ∈ codeExtensions
  · by_cases hs : 0 < fileScore (joinPath (pre ++ [name])) name fileRefs keywords
    · refine ⟨hext, hs, ?_⟩
      simp only [scoreEntry] at hr
      rw [if_pos (by simpa using hext), if_pos hs] at hr
      simpa using hr
    · simp [scoreEntry, hs] at hr
  · simp only [scoreEntry] at hr
    rw [if_neg (by simpa using hext)] at hr
    simp at hr

theorem score_pos_of_mem_walkFuel {fileRefs keywords : List String} :
    ∀ (fuel : Nat) (pre : List String) (entries : List FsEntry) (r : ScoredFile),
      r ∈ walkFuel fileRefs keywords fuel pre entries → 0 < r.score := by
  intro fuel
  induction fuel with
  | zero => intro pre entries r hr; simp [walkFuel_zero] at hr
  | succ fuel ih =>
    intro pre entries
    induction entries with
    | nil => intro r hr; simp [walkFuel_succ_nil] at hr
    | cons e rest ihr =>
      intro r hr
      cases e with
      | file name =>
        rw [walkFuel_succ_file] at hr
        rcases List.mem_append.mp hr with h | h
        · by_cases hskip : skipName name
          · simp [hskip] at h
          · rw [if_neg hskip] at h
            rcases mem_scoreEntry h with ⟨_, hs, rfl⟩
            exact hs
        · exact ihr r h
      | dir name children =>
        rw [walkFuel_succ_dir] at hr
        rcases List.mem_append.mp hr with h | h
        · by_cases hskip : skipName name
          · simp [hskip] at h
          · rw [if_neg hskip] at h
            exact ih (pre ++ [name]) children r h
        · exact ihr r h

theorem clean_path_of_mem_walkFuel {fileRefs keywords : List String} :
    ∀ (fuel : Nat) (pre : List String) (entries : List FsEntry) (r : ScoredFile),
      (∀ s ∈ pre, skipName s = false) →
      r ∈ walkFuel fileRefs keywords fuel pre entries →
      ∃ parts : List String, r.path = joinPath parts ∧ parts ≠ []
        ∧ ∀ s ∈ parts, skipName s = false := by
  intro fuel
  induction fuel with
  | zero => intro pre entries r _ hr; simp [walkFuel_zero] at hr
  | succ fuel ih =>
    intro pre entries
    induction entries with
    | nil => intro r _ hr; simp [walkFuel_succ_nil] at hr
    | cons e rest ihr =>
      intro r hpre hr
      cases e with
      | file name =>
        rw [walkFuel_succ_file] at hr
        rcases List.mem_append.mp hr with h | h
        · by_cases hskip : skipName name
          · simp [hskip] at h
          · rw [if_neg hskip] at h
            rcases mem_scoreEntry h with ⟨_, _, rfl⟩
            refine ⟨pre ++ [name], rfl, by simp, ?_⟩
            intro s hs
            rcases List.mem_append.mp hs with hs' | hs'
            · exact hpre s hs'
            · rw [List.mem_singleton.mp hs']
              simpa using hskip
        · exact ihr r hpre h
      | dir name children =>
        rw [walkFuel_succ_dir] at hr
        rcases List.mem_append.mp hr with h | h
        · by_cases hskip : skipName name
          · simp [hskip] at h
          · rw [if_neg hskip] at h
            refine ih (pre ++ [name]) children r ?_ h
            intro s hs
            rcases List.mem_append.mp hs with hs' | hs'
            · exact hpre s hs'
            · rw [List.mem_singleton.mp hs']
              simpa using hskip
        · exact ihr r hpre h

theorem walkFuel_dotfile_skipped {name : String}
    (hdot : jsStartsWith name "." = true) (fileRefs keywords : List String) :
    ∀ (fuel : Nat) (pre : List String) (entries1 entries2 : List FsEntry),
      walkFuel fileRefs keywords fuel pre (entries1 ++ FsEntry.file name :: entries2)
        = walkFuel fileRefs keywords fuel pre (entries1 ++ entries2) := by
  have hskip : skipName name = true := by
    simp [skipName, hdot]
  intro fuel
  cases fuel with
  | zero => intro pre entries1 entries2; rfl
  | succ fuel =>
    intro pre entries1
    induction entries1 with
    | nil =>
      intro entries2
      simp only [List.nil_append, walkFuel_succ_file, hskip, if_true, List.nil_append]
    | cons e t1 ih =>
      intro entries2
      cases e with
      | file n =>
        simp only [List.cons_append, walkFuel_succ_file, ih]
      | dir n children =>
        simp only [List.cons_append, walkFuel_succ_dir, ih]

theorem scoreEntry_readme {fileRefs keywords : List String} {pre : List String}
    (href : refHit (joinPath (pre ++ ["README.md"])) "README.md" fileRefs = false)
    (hkw : kwHit "README.md" keywords = none) :
    scoreEntry pre "README.md" fileRefs keywords
      = [{ path := joinPath (pre ++ ["README.md"]), reason := "README file", score := 2 }] := by
  have hscore : fileScore (joinPath (pre ++ ["README.md"])) "README.md" fileRefs keywords = 2 := by
    simp only [fileScore, href, hkw]
    decide
  have hreason : fileReason (joinPath (pre ++ ["README.md"])) "README.md" fileRefs keywords
      = "README file" := by
    simp only [fileReason, fileReasons, href, hkw]
    decide
  simp only [scoreEntry]
  rw [if_pos (by decide : codeExtensions.contains (extname "README.md") = true),
    hscore, hreason]
  rw [if_pos (by decide : 0 < 2)]

theorem walkFuel_readme_root {fileRefs keywords : List String} {pre : List String}
    (href : refHit (joinPath (pre ++ ["README.md"])) "README.md" fileRefs = false)
    (hkw : kwHit "README.md" keywords = none) (fuel : Nat) :
    ∀ (entries1 entries2 : List FsEntry),
      walkFuel fileRefs keywords (fuel + 1) pre
          (entries1 ++ FsEntry.file "README.md" :: entries2)
        = walkFuel fileRefs keywords (fuel + 1) pre entries1
          ++ { path := joinPath (pre ++ ["README.md"]), reason := "README file", score := 2 }
          :: walkFuel fileRefs keywords (fuel + 1) pre entries2 := by
  intro entries1
  induction entries1 with
  | nil =>
    intro entries2
    simp only [List.nil_append, walkFuel_succ_file, walkFuel_succ_nil]
    rw [if_neg (by decide : ¬skipName "README.md" = true), scoreEntry_readme href hkw]
    rfl
  | cons e t1 ih =>
    intro entries2
    cases e with
    | file n =>
      simp only [List.cons_append, walkFuel_succ_file, ih, List.append_assoc]
    | dir n children =>
      simp only [List.cons_append, walkFuel_succ_dir, ih, List.append_assoc]

/-! ## Claims about the relevance scorer -/

/-- Claim C1, counterexample: the keyword rule only inspects the first 20
keywords (`keywords.slice(0, 20)`), so enlarging the keyword list can push
a matching keyword out of the inspected window and strictly lower a
file's score; the claim as stated (monotone for every `K1 ⊆ K2`) is
therefore false on the code. -/
def c1K2 : List String :=
  ["xx01", "xx02", "xx03", "xx04", "xx05", "xx06", "xx07", "xx08", "xx09", "xx10",
   "xx11", "xx12", "xx13", "xx14", "xx15", "xx16", "xx17", "xx18", "xx19", "xx20",
   "login"]

/-- Claim C1 counterexample: `K1 = ["login"]` is a subset of `c1K2`
(20 junk keywords followed by `"login"`), yet the score of `login.ts`
drops from 3 under `K1` to 0 under `K2`, and the file disappears from the
returned list. -/
theorem c1_counterexample :
    (∀ a ∈ (["login"] : List String), a ∈ c1K2)
    ∧ fileScore "login.ts" "login.ts" [] ["login"] = 3
    ∧ fileScore "login.ts" "login.ts" [] c1K2 = 0
    ∧ findRelevantFiles [FsEntry.file "login.ts"] [] ["login"] 10
        = [("login.ts", "Matches keyword: login")]
    ∧ findRelevantFiles [FsEntry.file "login.ts"] [] c1K2 10 = [] := by
  decide

/-- Claim C1, amended: for reference lists `R1 ⊆ R2` and keyword lists
`K1 ⊆ K2` with `K2` no longer than the 20-keyword window the code
inspects, the score `findRelevantFiles` computes for each file under
`(R2, K2)` is at least its score under `(R1, K1)`; adding a reference
match can only increase a file's score, and adding a keyword match can
only increase it as long as the list stays within the inspected window. -/
theorem c1_score_monotone (rel name : String) (refs1 refs2 kws1 kws2 : List String)
    (href : ∀ a ∈ refs1, a ∈ refs2) (hkw : ∀ a ∈ kws1, a ∈ kws2)
    (hlen : kws2.length ≤ 20) :
    fileScore rel name refs1 kws1 ≤ fileScore rel name refs2 kws2 := by
  have h1 : refHit rel name refs1 = true → refHit rel name refs2 = true := by
    simp only [refHit, List.any_eq_true]
    rintro ⟨ref, hm, hp⟩
    exact ⟨ref, href ref hm, hp⟩
  have h2 : (kwHit name kws1).isSome = true → (kwHit name kws2).isSome = true := by
    simp only [kwHit, List.find?_isSome]
    rintro ⟨kw, hm, hp⟩
    have hm2 : kw ∈ kws2 := hkw kw (List.mem_of_mem_take hm)
    rw [List.take_of_length_le hlen]
    exact ⟨kw, hm2, hp⟩
  have t1 : (if refHit rel name refs1 then 10 else 0)
      ≤ (if refHit rel name refs2 then (10 : Nat) else 0) := by
    by_cases h : refHit rel name refs1 = true
    · rw [if_pos h, if_pos (h1 h)]
    · rw [if_neg h]
      exact Nat.zero_le _
  have t2 : (if (kwHit name kws1).isSome then 3 else 0)
      ≤ (if (kwHit name kws2).isSome then (3 : Nat) else 0) := by
    by_cases h : (kwHit name kws1).isSome = true
    · rw [if_pos h, if_pos (h2 h)]
    · rw [if_neg h]
      exact Nat.zero_le _
  unfold fileScore
  omega

/-- Claim C1 witness: a concrete instance of the amended monotonicity. -/
theorem c1_score_monotone_witness :
    fileScore "login.ts" "login.ts" [] ["login"]
      ≤ fileScore "login.ts" "login.ts" ["auth"] ["login", "signup"] :=
  c1_score_monotone "login.ts" "login.ts" [] ["auth"] ["login"] ["login", "signup"]
    (by decide) (by decide) (by decide)

/-- Claim C2: for every tree, reference list and keyword list,
`findRelevantFiles` returns at most `maxFiles` entries, every returned
entry stems from a walk result with strictly positive score, and the
default bound is 10. -/
theorem c2_bounded_and_positive (tree : List FsEntry) (fileRefs keywords : List String)
    (maxFiles : Nat) :
    (findRelevantFiles tree fileRefs keywords maxFiles).length ≤ maxFiles
    ∧ (∀ pr ∈ findRelevantFiles tree fileRefs keywords maxFiles,
        ∃ r : ScoredFile, r ∈ walkFuel fileRefs keywords 6 [] tree ∧ 0 < r.score
          ∧ pr = (r.path, r.reason))
    ∧ findRelevantFilesDefault tree fileRefs keywords
        = findRelevantFiles tree fileRefs keywords 10 := by
  refine ⟨?_, ?_, rfl⟩
  · unfold findRelevantFiles
    rw [List.length_map]
    simp [List.length_take]
  · intro pr hpr
    unfold findRelevantFiles at hpr
    rcases List.mem_map.mp hpr with ⟨r, hrt, heq⟩
    have hrw : r ∈ walkFuel fileRefs keywords 6 [] tree :=
      mem_sortByScoreDesc.mp (List.mem_of_mem_take hrt)
    exact ⟨r, hrw, score_pos_of_mem_walkFuel 6 [] tree r hrw, heq.symm⟩

/-- Claim C2 witness: concrete instance on a one-file tree. -/
theorem c2_bounded_and_positive_witness :
    (findRelevantFiles [FsEntry.file "main.ts"] ["main.ts"] [] 10).length ≤ 10
    ∧ ∃ r : ScoredFile, r ∈ walkFuel ["main.ts"] [] 6 [] [FsEntry.file "main.ts"]
        ∧ 0 < r.score ∧ ("main.ts", "Referenced in issue") = (r.path, r.reason) :=
  ⟨(c2_bounded_and_positive [FsEntry.file "main.ts"] ["main.ts"] [] 10).1,
   (c2_bounded_and_positive [FsEntry.file "main.ts"] ["main.ts"] [] 10).2.1
     ("main.ts", "Referenced in issue") (by decide)⟩

/-- Claim C4: the surviving scored files are sorted by score descending;
the sort is stable (for each score value, the subsequence of files with
that score is exactly the walk-order subsequence), and the sorted list is
truncated to `maxFiles` before the scores are dropped. -/
theorem c4_stable_sort_truncate (tree : List FsEntry) (fileRefs keywords : List String)
    (maxFiles : Nat) :
    scoresSorted (sortByScoreDesc (walkFuel fileRefs keywords 6 [] tree))
    ∧ (∀ s : Nat,
        (sortByScoreDesc (walkFuel fileRefs keywords 6 [] tree)).filter
            (fun r => r.score == s)
          = (walkFuel fileRefs keywords 6 [] tree).filter (fun r => r.score == s))
    ∧ findRelevantFiles tree fileRefs keywords maxFiles
        = ((sortByScoreDesc (walkFuel fileRefs keywords 6 [] tree)).take maxFiles).map
            (fun r => (r.path, r.reason)) :=
  ⟨scoresSorted_sortByScoreDesc _, fun s => filter_sortByScoreDesc _ s, rfl⟩

/-- Claim C3, counterexample: with reference `"auth.ts"`, no keywords,
and tree `src/auth.ts`, `src/other.ts`, the reason string produced by the
code is `"Referenced in issue"` (capital R), not the claimed
`"referenced in issue"`. -/
theorem c3_counterexample :
    findRelevantFiles [FsEntry.dir "src" [FsEntry.file "auth.ts", FsEntry.file "other.ts"]]
        ["auth.ts"] [] 10 = [("src/auth.ts", "Referenced in issue")]
    ∧ ("src/auth.ts", "referenced in issue")
        ∉ findRelevantFiles [FsEntry.dir "src" [FsEntry.file "auth.ts", FsEntry.file "other.ts"]]
            ["auth.ts"] [] 10 := by
  decide

/-- Claim C3, amended: same scenario, with the reason capitalized as the
code writes it: only `src/auth.ts` is scored, with score 10 and reason
`"Referenced in issue"`. -/
theorem c3_reference_scenario :
    walkFuel ["auth.ts"] [] 6 []
        [FsEntry.dir "src" [FsEntry.file "auth.ts", FsEntry.file "other.ts"]]
      = [{ path := "src/auth.ts", reason := "Referenced in issue", score := 10 }]
    ∧ findRelevantFiles [FsEntry.dir "src" [FsEntry.file "auth.ts", FsEntry.file "other.ts"]]
        ["auth.ts"] [] 10 = [("src/auth.ts", "Referenced in issue")] := by
  decide

/-- Claim C5, counterexample: a tree containing `README.md` (with no
reference and no keyword match) under a `node_modules` directory: the
file is never visited, so it is not scored and does not appear in the
returned list although capacity permits. -/
theorem c5_counterexample :
    findRelevantFiles [FsEntry.dir "node_modules" [FsEntry.file "README.md"]] [] [] 10
      = [] := by
  decide

/-- Claim C5, amended: for every tree in which the walk reaches a file
named `README.md` (here: present in the root directory listing, the
scenario's shape) that matches no file reference and no keyword, the file
is scored 2 with reason `"README file"`, survives the discard threshold,
and appears in the returned list capacity permitting. -/
theorem c5_readme_scored (fileRefs keywords : List String)
    (entries1 entries2 : List FsEntry) (maxFiles : Nat)
    (href : refHit "README.md" "README.md" fileRefs = false)
    (hkw : kwHit "README.md" keywords = none) :
    walkFuel fileRefs keywords 6 [] (entries1 ++ FsEntry.file "README.md" :: entries2)
      = walkFuel fileRefs keywords 6 [] entries1
        ++ { path := "README.md", reason := "README file", score := 2 }
        :: walkFuel fileRefs keywords 6 [] entries2
    ∧ ((walkFuel fileRefs keywords 6 []
          (entries1 ++ FsEntry.file "README.md" :: entries2)).length ≤ maxFiles →
        ("README.md", "README file")
          ∈ findRelevantFiles (entries1 ++ FsEntry.file "README.md" :: entries2)
              fileRefs keywords maxFiles) := by
  have hmain := @walkFuel_readme_root fileRefs keywords [] href hkw 5 entries1 entries2
  constructor
  · exact hmain
  · intro hlen
    unfold findRelevantFiles
    have hmem : ({ path := "README.md", reason := "README file", score := 2 } : ScoredFile)
        ∈ walkFuel fileRefs keywords 6 [] (entries1 ++ FsEntry.file "README.md" :: entries2) := by
      rw [hmain]
      exact List.mem_append.mpr (Or.inr (List.mem_cons_self _ _))
    have hmem2 := mem_sortByScoreDesc.mpr hmem
    rw [List.take_of_length_le (by rw [length_sortByScoreDesc]; exact hlen)]
    exact List.mem_map.mpr ⟨_, hmem2, rfl⟩

/-- Claim C5 witness: concrete instance, `README.md` alone at the root. -/
theorem c5_readme_scored_witness :
    walkFuel [] [] 6 [] ([] ++ FsEntry.file "README.md" :: [])
      = walkFuel [] [] 6 [] []
        ++ { path := "README.md", reason := "README file", score := 2 }
        :: walkFuel [] [] 6 [] []
    ∧ ("README.md", "README file")
        ∈ findRelevantFiles ([] ++ FsEntry.file "README.md" :: []) [] [] 10 :=
  ⟨(c5_readme_scored [] [] [] [] 10 (by decide) (by decide)).1,
   (c5_readme_scored [] [] [] [] 10 (by decide) (by decide)).2 (by decide)⟩

/-- Claim C8: every path returned by `findRelevantFiles` is a non-empty
sequence of path components none of which is dot-prefixed, `node_modules`,
`target` or `dist`: the walk never descends into such directories and
never scores such entries, at any depth. -/
theorem c8_skipped_dirs_never_returned (tree : List FsEntry)
    (fileRefs keywords : List String) (maxFiles : Nat) (p reason : String)
    (hmem : (p, reason) ∈ findRelevantFiles tree fileRefs keywords maxFiles) :
    ∃ parts : List String, p = joinPath parts ∧ parts ≠ []
      ∧ ∀ s ∈ parts, jsStartsWith s "." = false ∧ s ≠ "node_modules"
          ∧ s ≠ "target" ∧ s ≠ "dist" := by
  unfold findRelevantFiles at hmem
  rcases List.mem_map.mp hmem with ⟨r, hrt, heq⟩
  have hrw : r ∈ walkFuel fileRefs keywords 6 [] tree :=
    mem_sortByScoreDesc.mp (List.mem_of_mem_take hrt)
  rcases clean_path_of_mem_walkFuel 6 [] tree r (by simp) hrw with
    ⟨parts, hpath, hne, hclean⟩
  have hp : p = r.path := (congrArg Prod.fst heq).symm
  refine ⟨parts, hp.trans hpath, hne, ?_⟩
  intro s hs
  have h := hclean s hs
  simp only [skipName, Bool.or_eq_false_iff, beq_eq_false_iff_ne] at h
  exact ⟨h.1.1.1, h.1.1.2, h.1.2, h.2⟩

/-- Claim C8 witness: concrete instance on a one-file tree. -/
theorem c8_skipped_dirs_never_returned_witness :
    ∃ parts : List String, "main.ts" = joinPath parts ∧ parts ≠ []
      ∧ ∀ s ∈ parts, jsStartsWith s "." = false ∧ s ≠ "node_modules"
          ∧ s ≠ "target" ∧ s ≠ "dist" :=
  c8_skipped_dirs_never_returned [FsEntry.file "main.ts"] ["main.ts"] [] 10
    "main.ts" "Referenced in issue" (by decide)

/-- Claim C10: the name-based skip applies to files too: inserting a
dot-prefixed file anywhere in a directory listing never changes the walk
results nor the returned list, even when the file is explicitly
referenced in the issue text. -/
theorem c10_dotfile_invisible (fileRefs keywords : List String) (maxFiles fuel : Nat)
    (pre : List String) (entries1 entries2 : List FsEntry) (name : String)
    (hdot : jsStartsWith name "." = true) :
    walkFuel fileRefs keywords fuel pre (entries1 ++ FsEntry.file name :: entries2)
      = walkFuel fileRefs keywords fuel pre (entries1 ++ entries2)
    ∧ findRelevantFiles (entries1 ++ FsEntry.file name :: entries2) fileRefs keywords maxFiles
      = findRelevantFiles (entries1 ++ entries2) fileRefs keywords maxFiles := by
  constructor
  · exact walkFuel_dotfile_skipped hdot fileRefs keywords fuel pre entries1 entries2
  · unfold findRelevantFiles
    rw [walkFuel_dotfile_skipped hdot fileRefs keywords 6 [] entries1 entries2]

/-- Claim C10 witness: `.eslintrc.js`, even when referenced, is invisible. -/
theorem c10_dotfile_invisible_witness :
    walkFuel [".eslintrc.js"] [] 6 [] ([] ++ FsEntry.file ".eslintrc.js" :: [FsEntry.file "app.ts"])
      = walkFuel [".eslintrc.js"] [] 6 [] ([] ++ [FsEntry.file "app.ts"])
    ∧ findRelevantFiles ([] ++ FsEntry.file ".eslintrc.js" :: [FsEntry.file "app.ts"])
        [".eslintrc.js"] [] 10
      = findRelevantFiles ([] ++ [FsEntry.file "app.ts"]) [".eslintrc.js"] [] 10 :=
  c10_dotfile_invisible [".eslintrc.js"] [] 10 6 [] [] [FsEntry.file "app.ts"]
    ".eslintrc.js" (by decide)

theorem processNewIssues_cons (proc : DbIssue → Except String (List (Nat × String)))
    (issue : DbIssue) (rest : List DbIssue) :
    processNewIssues proc (issue :: rest)
      = (match proc issue with
         | Except.ok updates => updates
         | Except.error _ => [(issue.id, "skipped")])
        ++ processNewIssues proc rest := rfl

/-- Claim C9: if processing an issue in status `new` throws, the caller
marks exactly that issue `skipped` (once — no retry within the component)
and continues with the next issue: the updates for the issues before and
after the failing one are unchanged. -/
theorem c9_failure_skips_and_continues (proc : DbIssue → Except String (List (Nat × String)))
    (before after : List DbIssue) (bad : DbIssue) (e : String)
    (hbad : proc bad = Except.error e) :
    processNewIssues proc (before ++ bad :: after)
      = processNewIssues proc before
        ++ (bad.id, "skipped") :: processNewIssues proc after := by
  induction before with
  | nil =>
    rw [List.nil_append, processNewIssues_cons, hbad]
    rfl
  | cons i rest ih =>
    rw [List.cons_append, processNewIssues_cons, processNewIssues_cons, ih,
      List.append_assoc]

/-- Claim C9 witness: concrete run where the middle issue's clone fails. -/
theorem c9_failure_skips_and_continues_witness :
    processNewIssues
        (fun i => if i.id == 1 then Except.error "clone failed"
                  else Except.ok [(i.id, "ready")])
        ([{ id := 0, repo_name := "o/r", issue_number := 7 }]
          ++ { id := 1, repo_name := "o/r", issue_number := 8 }
          :: [{ id := 2, repo_name := "o/r", issue_number := 9 }])
      = processNewIssues
          (fun i => if i.id == 1 then Except.error "clone failed"
                    else Except.ok [(i.id, "ready")])
          [{ id := 0, repo_name := "o/r", issue_number := 7 }]
        ++ (({ id := 1, repo_name := "o/r", issue_number := 8 } : DbIssue).id, "skipped")
        :: processNewIssues
            (fun i => if i.id == 1 then Except.error "clone failed"
                      else Except.ok [(i.id, "ready")])
            [{ id := 2, repo_name := "o/r", issue_number := 9 }] :=
  c9_failure_skips_and_continues
    (fun i => if i.id == 1 then Except.error "clone failed"
              else Except.ok [(i.id, "ready")])
    [{ id := 0, repo_name := "o/r", issue_number := 7 }]
    [{ id := 2, repo_name := "o/r", issue_number := 9 }]
    { id := 1, repo_name := "o/r", issue_number := 8 } "clone failed" rfl

/-! ## Keyword extractor lemmas and claims -/

theorem mem_dedupAux :
    ∀ (l seen : List String) (x : String),
      x ∈ dedupAux seen l ↔ x ∈ l ∧ x ∉ seen := by
  intro l
  induction l with
  | nil => intro seen x; simp [dedupAux]
  | cons y ys ih =>
    intro seen x
    by_cases hy : seen.contains y = true
    · have hym : y ∈ seen := by simpa using hy
      rw [dedupAux, if_pos hy, ih seen x]
      constructor
      · rintro ⟨h1, h2⟩
        exact ⟨List.mem_cons_of_mem y h1, h2⟩
      · rintro ⟨h1, h2⟩
        rcases List.mem_cons.mp h1 with rfl | h1'
        · exact absurd hym h2
        · exact ⟨h1', h2⟩
    · have hym : y ∉ seen := by simpa using hy
      rw [dedupAux, if_neg hy]
      simp only [List.mem_cons, ih (y :: seen) x]
      constructor
      · rintro (rfl | ⟨h1, h2⟩)
        · exact ⟨Or.inl rfl, hym⟩
        · exact ⟨Or.inr h1, fun hc => h2 (Or.inr hc)⟩
      · rintro ⟨rfl | h1, h2⟩
        · exact Or.inl rfl
        · by_cases hxy : x = y
          · exact Or.inl hxy
          · refine Or.inr ⟨h1, ?_⟩
            rintro (rfl | hc')
            · exact hxy rfl
            · exact h2 hc'

theorem a2Tail_all_alpha :
    ∀ l : List Char, l.all Char.isAlpha = true → a2Tail l = false := by
  intro l
  induction l with
  | nil => intro _; rfl
  | cons c rest ih =>
    intro h
    rw [List.all_cons, Bool.and_eq_true] at h
    obtain ⟨hc, hrest⟩ := h
    rw [a2Tail]
    by_cases hl : c.isLower = true
    · rw [if_pos hl]
      exact ih hrest
    · rw [if_neg hl]
      have hund : (c == '_') = false := by
        cases heq : c == '_'
        · rfl
        · have : c = '_' := eq_of_beq heq
          subst this
          exact absurd hc (by decide)
      simp [hund]

theorem not_identifier_of_nonupper_alpha :
    ∀ (cs : List Char) (c : Char), cs.head? = some c → c.isUpper = false →
      cs.all Char.isAlpha = true → matchIdentifier cs = false := by
  intro cs c hhead hup halpha
  cases cs with
  | nil => simp at hhead
  | cons c0 rest =>
    have hc0 : c0 = c := by simpa using hhead
    subst hc0
    rw [List.all_cons, Bool.and_eq_true] at halpha
    obtain ⟨_, hrest⟩ := halpha
    rw [matchIdentifier]
    have h3 : matchA3 (c0 :: rest) = false := by
      rw [matchA3, hup]
      rfl
    have h2 : matchA2 (c0 :: rest) = false := by
      rw [matchA2, a2Tail_all_alpha rest hrest]
      simp
    have h1 : matchA1 (c0 :: rest) = false := by
      cases rest with
      | nil => rfl
      | cons c1 r2 =>
        rw [matchA1, hup]
        rfl
    rw [h1, h2, h3]
    rfl

/-- Claim C6, counterexample: the first identifier pattern
`[A-Z][a-z]+[A-Z][a-zA-Z]*` requires an uppercase first letter, so the
camelCase compound `parseConfig` (lowercase first letter) is not matched
by any identifier pattern; only its lowercased word form `parseconfig`
is extracted. -/
theorem c6_counterexample :
    extractKeywords "parseConfig" = ["parseconfig"]
    ∧ "parseConfig" ∉ extractKeywords "parseConfig" := by
  decide

/-- Claim C6, amended: the extractor's output is the union (first
occurrence kept, set semantics) of the identifier-shaped word-character
runs matched by the three patterns and the lowercase words of length > 3
not in the stop-word set; the first pattern only matches compounds
beginning with an uppercase letter, so an alphabetic token that does not
start with an uppercase letter — in particular a camelCase compound like
`parseConfig` — is matched by no identifier pattern and contributes only
its lowercased word form. -/
theorem c6_union_and_camelcase (text s : String) :
    (s ∈ extractKeywords text
      ↔ s ∈ identifierTokens text ∨ s ∈ significantWords text)
    ∧ (∀ w ∈ identifierTokens text,
        ∃ r : List Char, w = String.mk r ∧ matchIdentifier r = true)
    ∧ (∀ w ∈ significantWords text, 3 < w.length ∧ w ∉ stopWords)
    ∧ (∀ (cs : List Char) (c : Char), cs.head? = some c → c.isUpper = false →
        cs.all Char.isAlpha = true → matchIdentifier cs = false) := by
  refine ⟨?_, ?_, ?_, not_identifier_of_nonupper_alpha⟩
  · unfold extractKeywords
    rw [mem_dedupAux]
    simp
  · intro w hw
    unfold identifierTokens at hw
    rcases List.mem_map.mp hw with ⟨r, hr, rfl⟩
    exact ⟨r, rfl, (List.mem_filter.mp hr).2⟩
  · intro w hw
    unfold significantWords at hw
    have h := (List.mem_filter.mp hw).2
    rw [Bool.and_eq_true] at h
    obtain ⟨h1, h2⟩ := h
    refine ⟨by simpa using h1, ?_⟩
    simpa using h2

/-- Claim C6 witness: concrete instances of each part of the amended
claim, at `parseConfig` (not identifier-shaped) and `FooBar`
(identifier-shaped). -/
theorem c6_union_and_camelcase_witness :
    ("parseconfig" ∈ extractKeywords "parseConfig"
      ↔ "parseconfig" ∈ identifierTokens "parseConfig"
        ∨ "parseconfig" ∈ significantWords "parseConfig")
    ∧ (∃ r : List Char, "FooBar" = String.mk r ∧ matchIdentifier r = true)
    ∧ (3 < "parseconfig".length ∧ "parseconfig" ∉ stopWords)
    ∧ matchIdentifier "parseConfig".data = false :=
  ⟨(c6_union_and_camelcase "parseConfig" "parseconfig").1,
   (c6_union_and_camelcase "FooBar" "FooBar").2.1 "FooBar" (by decide),
   (c6_union_and_camelcase "parseConfig" "parseconfig").2.2.1 "parseconfig" (by decide),
   (c6_union_and_camelcase "parseConfig" "parseconfig").2.2.2 "parseConfig".data 'p'
     (by decide) (by decide) (by decide)⟩

/-! ## Task brief lemmas and claim C7 -/

theorem leadsWith_self_append :
    ∀ (s l : List Char), leadsWith s (s ++ l) = true := by
  intro s
  induction s with
  | nil => intro l; rfl
  | cons c cs ih =>
    intro l
    simp [leadsWith, ih]

theorem containsRun_of_parts :
    ∀ (l1 s l2 : List Char), containsRun s (l1 ++ (s ++ l2)) = true := by
  intro l1
  induction l1 with
  | nil =>
    intro s l2
    have hl : leadsWith s (s ++ l2) = true := leadsWith_self_append s l2
    rw [List.nil_append]
    cases hs : s ++ l2 with
    | nil =>
      rw [hs] at hl
      rw [containsRun]
      exact hl
    | cons c rest =>
      rw [hs] at hl
      rw [containsRun, hl]
      rfl
  | cons c t1 ih =>
    intro s l2
    rw [List.cons_append, containsRun, ih s l2]
    simp

theorem strIncludes_of_parts (big small : String) (pre post : List Char)
    (h : big.data = pre ++ (small.data ++ post)) : strIncludes big small = true := by
  unfold strIncludes
  rw [h]
  exact containsRun_of_parts pre small.data post

theorem mem_joinLines_parts :
    ∀ (lines : List String) (s : String), s ∈ lines →
      ∃ pre post : List Char, (joinLines lines).data = pre ++ (s.data ++ post) := by
  intro lines
  induction lines with
  | nil => intro s hs; simp at hs
  | cons x rest ih =>
    intro s hs
    rcases List.mem_cons.mp hs with rfl | hs'
    · cases rest with
      | nil => exact ⟨[], [], by simp [joinLines]⟩
      | cons y t =>
        refine ⟨[], '\n' :: (joinLines (y :: t)).data, ?_⟩
        show ((s ++ "\n") ++ joinLines (y :: t)).data = _
        simp [String.data_append]
    · cases rest with
      | nil => simp at hs'
      | cons y t =>
        rcases ih s hs' with ⟨pre, post, hp⟩
        refine ⟨x.data ++ ('\n' :: pre), post, ?_⟩
        show ((x ++ "\n") ++ joinLines (y :: t)).data = _
        simp [String.data_append, hp]

theorem strIncludes_joinLines_of_mem {lines : List String} {s : String}
    (h : s ∈ lines) : strIncludes (joinLines lines) s = true := by
  rcases mem_joinLines_parts lines s h with ⟨pre, post, hp⟩
  exact strIncludes_of_parts _ _ pre post hp

/-- Claim C7: a failed read of a relevant file is caught per-file:
`readFileContent` returns the inline error marker instead of propagating
the failure, and the brief still renders in full, with the marker
appearing inside the rendered document (the failing file's content
block); the rendering is a total function, so the document is never
aborted. -/
theorem c7_read_error_inline (formatDate : String → String) (issue : IssueMeta)
    (comments : List CommentItem) (fsys : String → Except String String)
    (repoPath branchName : String) (pairs : List (String × String))
    (p reason e : String)
    (hmem : (p, reason) ∈ pairs)
    (hfail : fsys (repoPath ++ "/" ++ p) = Except.error e) :
    readFileContent fsys (repoPath ++ "/" ++ p) 500
        = "[Error reading file: " ++ e ++ "]"
    ∧ strIncludes (renderBrief formatDate issue comments fsys repoPath branchName pairs)
        ("[Error reading file: " ++ e ++ "]") = true := by
  have hread : readFileContent fsys (repoPath ++ "/" ++ p) 500
      = "[Error reading file: " ++ e ++ "]" := by
    unfold readFileContent
    rw [hfail]
  refine ⟨hread, ?_⟩
  have hrf :
      ({ path := p, content := "[Error reading file: " ++ e ++ "]",
         reason := reason } : RelevantFile) ∈ contextFiles fsys repoPath pairs := by
    unfold contextFiles
    refine List.mem_map.mpr ⟨(p, reason), hmem, ?_⟩
    rw [hread]
  have hne : contextFiles fsys repoPath pairs ≠ [] := List.ne_nil_of_mem hrf
  have hlen0 : ((contextFiles fsys repoPath pairs).length == 0) = false := by
    have : (contextFiles fsys repoPath pairs).length ≠ 0 :=
      fun hh => hne (List.length_eq_zero.mp hh)
    simpa using this
  have hin : "[Error reading file: " ++ e ++ "]"
      ∈ (if (contextFiles fsys repoPath pairs).length == 0 then
           ["*No relevant files automatically identified. You may need to explore the repository.*"]
         else ((contextFiles fsys repoPath pairs).map (fun f =>
            ["### `" ++ f.path ++ "`", "*" ++ f.reason ++ "*", "",
             "```", f.content, "```", ""])).flatten) := by
    rw [hlen0]
    simp only [Bool.false_eq_true, if_false]
    exact List.mem_flatten.mpr ⟨_, List.mem_map.mpr ⟨_, hrf, rfl⟩, by simp⟩
  unfold renderBrief generateTaskFile
  apply strIncludes_joinLines_of_mem
  simp only [List.mem_append]
  tauto

/-- Claim C7 witness: concrete brief in which the only relevant file's
read fails; the marker appears in the rendered document. -/
theorem c7_read_error_inline_witness :
    readFileContent (fun _ => Except.error "ENOENT") ("/repo" ++ "/" ++ "a.ts") 500
        = "[Error reading file: " ++ "ENOENT" ++ "]"
    ∧ strIncludes
        (renderBrief (fun s => s)
          { number := 1, title := "t", body := none, html_url := "u",
            repo_name := "o/r", labels := [] }
          [] (fun _ => Except.error "ENOENT") "/repo" "b"
          [("a.ts", "Referenced in issue")])
        ("[Error reading file: " ++ "ENOENT" ++ "]") = true :=
  c7_read_error_inline (fun s => s)
    { number := 1, title := "t", body := none, html_url := "u",
      repo_name := "o/r", labels := [] }
    [] (fun _ => Except.error "ENOENT") "/repo" "b"
    [("a.ts", "Referenced in issue")] "a.ts" "Referenced in issue" "ENOENT"
    (by decide) rfl

end MindAgent
